import Mathlib

/-
Verification development for the Amazon-finder repository.

The two algorithmic cores are shallowly embedded here:
  * the listing pipeline of src/amazon_search.py (_clean_title, _parse_price,
    _parse_rating, _parse_reviews, _parse_screen_size, _is_actual_monitor,
    _filter_and_parse, _rank, _deduplicate);
  * the command interpreter of src/parser.py (parse_message).

Python floats are modelled as exact rationals (ℚ), Python ints as Nat/Int.
Code that can raise an exception (the unguarded float() calls inside
_parse_rating and _parse_reviews) is modelled in the Except monad; code that
catches its exceptions (_parse_price) returns an Option directly.

The regular expressions of the source are embedded as dedicated scanning
functions over List Char.  Each scanning function implements exactly one regex
of the source; where a regex is deterministic after the usual leftmost-longest
analysis this is noted next to the function.  Global substitution (re.sub) and
first-match search (re.search) are implemented by the generic fueled scanners
gsubAux / searchAux; the fuel is always the length of the text, which bounds
the number of scan positions, so the 0-fuel arms are unreachable.
-/

-- ===================================================================
-- Basic character / string helpers with Python semantics
-- ===================================================================

/-- Python str.isspace-relevant characters for the regex class \s and strip(). -/
def isPySpace (c : Char) : Bool :=
  c == ' ' || c == '\t' || c == '\n' || c == '\r' || c == '\x0b' || c == '\x0c'

/-- Regex word character \w (ASCII fragment: letters, digits, underscore). -/
def isWordChar (c : Char) : Bool :=
  c.isAlphanum || c == '_'

/-- Regex class [\d.]. -/
def isNumDot (c : Char) : Bool :=
  c.isDigit || c == '.'

def pyLowerL (l : List Char) : List Char :=
  l.map Char.toLower

/-- Python str.lower (ASCII fragment). -/
def pyLower (s : String) : String :=
  ⟨pyLowerL s.data⟩

def trimLeftL (l : List Char) : List Char :=
  l.dropWhile isPySpace

def trimRightL (l : List Char) : List Char :=
  (l.reverse.dropWhile isPySpace).reverse

def pyStripL (l : List Char) : List Char :=
  trimRightL (trimLeftL l)

/-- Python str.strip(). -/
def pyStrip (s : String) : String :=
  ⟨pyStripL s.data⟩

/-- List-of-chars prefix test. -/
def isPreL : List Char → List Char → Bool
  | [], _ => true
  | _ :: _, [] => false
  | a :: as, b :: bs => a == b && isPreL as bs

/-- Substring test: does pat occur inside l (Python "pat in l")? -/
def isInfixL : List Char → List Char → Bool
  | pat, [] => isPreL pat []
  | pat, c :: rest => isPreL pat (c :: rest) || isInfixL pat rest

def containsStr (hay pat : String) : Bool := isInfixL pat.data hay.data

def startsWithStr (s p : String) : Bool := isPreL p.data s.data

/-- takeWhile/dropWhile pair, the maximal-munch step of the scanners. -/
def spanP (p : Char → Bool) (l : List Char) : List Char × List Char :=
  (l.takeWhile p, l.dropWhile p)

/-- The text consumed between the scan position l and the remainder rest. -/
def takeDiff (l rest : List Char) : List Char :=
  l.take (l.length - rest.length)

def digitsToNat (l : List Char) : Nat :=
  l.foldl (fun acc c => acc * 10 + (c.toNat - '0'.toNat)) 0

/-- Python float() restricted to strings of digits and dots, the only shapes the
repository ever feeds it: at most one dot and at least one digit, otherwise a
ValueError (modelled as none). -/
def pyFloatDigits (l : List Char) : Option ℚ :=
  let (d1, r1) := spanP Char.isDigit l
  match r1 with
  | [] => if d1 = [] then none else some (digitsToNat d1 : ℚ)
  | '.' :: r2 =>
    let (d2, r3) := spanP Char.isDigit r2
    if r3 = [] then
      if d1 = [] && d2 = [] then none
      else some ((digitsToNat d1 : ℚ) + (digitsToNat d2 : ℚ) / ((10 : ℚ) ^ d2.length))
    else none
  | _ => none

/-- re.sub(r'\s+', ' ', ·): collapse each maximal whitespace run to one space.
The flag records whether the previous character was whitespace. -/
def cwAux : Bool → List Char → List Char
  | _, [] => []
  | prevSpace, c :: rest =>
    match isPySpace c, prevSpace with
    | true, true => cwAux true rest
    | true, false => ' ' :: cwAux true rest
    | false, _ => c :: cwAux false rest

def subSpacesL (l : List Char) : List Char := cwAux false l

/-- re.sub(r'\s+', ' ', ·) followed by .strip(), the last step of _clean_title. -/
def normSpaceL (l : List Char) : List Char := pyStripL (subSpacesL l)

def normSpaceStr (s : String) : String := ⟨normSpaceL s.data⟩

/-- Dedup title key: re.sub(r'\s+', ' ', title.lower().strip()). -/
def titleKey (s : String) : String := ⟨subSpacesL (pyStripL (pyLowerL s.data))⟩

-- ===================================================================
-- Generic regex-rule machinery
-- ===================================================================

/-- A substitution-rule matcher: given the previous character (boundary and
lookbehind context) and the remaining text, return (replacement, consumed, rest)
when the pattern matches anchored at the current position.  Every matcher below
consumes at least one character. -/
abbrev RuleM := Option Char → List Char → Option (List Char × List Char × List Char)

/-- re.sub with a matcher: scan left to right, replace non-overlapping matches,
resume scanning after the end of each match. -/
def gsubAux (m : RuleM) : Nat → Option Char → List Char → List Char
  | 0, _, l => l
  | _ + 1, _, [] => []
  | fuel + 1, prev, c :: rest =>
    match m prev (c :: rest) with
    | some (repl, consumed, after) => repl ++ gsubAux m fuel consumed.getLast? after
    | none => c :: gsubAux m fuel (some c) rest

def gsubL (m : RuleM) (l : List Char) : List Char := gsubAux m l.length none l

/-- re.search with a matcher returning the captured group: leftmost match wins. -/
def searchAux (m : Option Char → List Char → Option (List Char)) :
    Nat → Option Char → List Char → Option (List Char)
  | 0, _, _ => none
  | _ + 1, _, [] => none
  | fuel + 1, prev, c :: rest =>
    match m prev (c :: rest) with
    | some g => some g
    | none => searchAux m fuel (some c) rest

def searchL (m : Option Char → List Char → Option (List Char)) (l : List Char) :
    Option (List Char) :=
  searchAux m (l.length + 1) none l

/-- \b holds before the current position. -/
def boundaryBefore : Option Char → Bool
  | none => true
  | some c => !isWordChar c

/-- \b holds after the consumed text, given the remainder. -/
def boundaryAfterL : List Char → Bool
  | [] => true
  | c :: _ => !isWordChar c

def stripPreExact : List Char → List Char → Option (List Char)
  | [], l => some l
  | _ :: _, [] => none
  | p :: ps, c :: cs => if c == p then stripPreExact ps cs else none

/-- Case-insensitive literal prefix (the pattern is given lowercase). -/
def stripPreCI : List Char → List Char → Option (List Char)
  | [], l => some l
  | _ :: _, [] => none
  | p :: ps, c :: cs => if c.toLower == p then stripPreCI ps cs else none

def dropDash : List Char → List Char
  | '-' :: r => r
  | l => l

-- ===================================================================
-- _clean_title (amazon_search.py lines 297-316): the eight ordered rules
-- ===================================================================

/-- Rule 1a: r'\b(?:Unisex\s*-?\s*[Aa]dult|unisex-adult)\b\s*-?\s*' with
IGNORECASE, replaced by the empty string.  The second alternative is an
instance of the first, so only the first needs to be implemented. -/
def noiseAdultM : RuleM := fun prev l =>
  if !boundaryBefore prev then none
  else
    match stripPreCI "unisex".data l with
    | none => none
    | some r1 =>
      let r3 := (spanP isPySpace (dropDash ((spanP isPySpace r1).2))).2
      match stripPreCI "adult".data r3 with
      | none => none
      | some r4 =>
        if !boundaryAfterL r4 then none
        else
          let r6 := (spanP isPySpace (dropDash ((spanP isPySpace r4).2))).2
          some ([], takeDiff l r6, r6)

/-- Try a list of alternative literal words, each requiring \b after; regex
alternation order.  (Used where no alternative is a prefix of another except
when the shorter one fails its trailing context, which this retry handles.) -/
def tryWordAlts : List String → List Char → Option (List Char)
  | [], _ => none
  | w :: ws, l =>
    match stripPreCI w.data l with
    | some r => if boundaryAfterL r then some r else tryWordAlts ws l
    | none => tryWordAlts ws l

/-- Rule 1b: r'\b(?:mens|womens|unisex)\b\s*' with IGNORECASE, replaced by ''. -/
def noiseWordM : RuleM := fun prev l =>
  if !boundaryBefore prev then none
  else
    match tryWordAlts ["mens", "womens", "unisex"] l with
    | none => none
    | some r1 =>
      let r2 := (spanP isPySpace r1).2
      some ([], takeDiff l r2, r2)

/-- Rule 2: r'\b(\w+)\s+\1\b' → r'\1'.  The greedy \w+ must stop at the word
end (the next pattern item is \s), and \s+ must swallow the whole whitespace
run (the back-reference starts with a word character), so the scan is
deterministic. -/
def dupWordM : RuleM := fun prev l =>
  if !boundaryBefore prev then none
  else
    let (w, r1) := spanP isWordChar l
    if w = [] then none
    else
      let (sp, r2) := spanP isPySpace r1
      if sp = [] then none
      else
        match stripPreExact w r2 with
        | none => none
        | some r3 => if boundaryAfterL r3 then some (w, takeDiff l r3, r3) else none

/-- Rule 3: r'([A-Z][a-z]{2,})\1' → r'\1'.  Only the full lowercase run can
back-reference: a shorter group would be followed by a lowercase letter, which
cannot match the uppercase first character of \1. -/
def dupFragM : RuleM := fun _ l =>
  match l with
  | [] => none
  | c :: rest =>
    if !c.isUpper then none
    else
      let (run, r1) := spanP Char.isLower rest
      if run.length < 2 then none
      else
        match stripPreExact (c :: run) r1 with
        | none => none
        | some r2 => some (c :: run, takeDiff l r2, r2)

/-- Extend a capitalized phrase with further \s+[A-Z][a-z]+ words, returning
all stages (phrase, rest) from shortest to longest.  Within each word the
lowercase run is forced maximal (a shorter run is followed by a lowercase
letter, which neither \s+ nor the uppercase start of \1 can match). -/
def phraseExts : Nat → List Char → List Char → List (List Char × List Char)
  | 0, ph, rest => [(ph, rest)]
  | fuel + 1, ph, rest =>
    let (sp, r1) := spanP isPySpace rest
    if sp = [] then [(ph, rest)]
    else
      match r1 with
      | [] => [(ph, rest)]
      | u :: r2 =>
        if !u.isUpper then [(ph, rest)]
        else
          let (run2, r3) := spanP Char.isLower r2
          if run2 = [] then [(ph, rest)]
          else (ph, rest) :: phraseExts fuel (ph ++ sp ++ u :: run2) r3

/-- Try the phrase stages (longest first, greedy star): the back-reference \1
must repeat the exact matched text, then s? greedily eats a trailing 's'. -/
def tryPhrases : List (List Char × List Char) → Option (List Char × List Char)
  | [] => none
  | (ph, rest) :: more =>
    match stripPreExact ph rest with
    | some r2 => some (ph, if r2.head? = some 's' then r2.tail else r2)
    | none => tryPhrases more

/-- Rule 4: r'([A-Z][a-z]+(?:\s+[A-Z][a-z]+)*)\1s?' → r'\1'. -/
def dupPhraseM : RuleM := fun _ l =>
  match l with
  | [] => none
  | c :: rest =>
    if !c.isUpper then none
    else
      let (run, r1) := spanP Char.isLower rest
      if run = [] then none
      else
        match tryPhrases (phraseExts r1.length (c :: run) r1).reverse with
        | some (ph, r2) => some (ph, takeDiff l r2, r2)
        | none => none

/-- Rule 5: r'([a-z])([A-Z])' → r'\1 \2'. -/
def camelM : RuleM := fun _ l =>
  match l with
  | c1 :: c2 :: r =>
    if c1.isLower && c2.isUpper then some ([c1, ' ', c2], [c1, c2], r) else none
  | _ => none

/-- Rule 6: r'(?<=\s)([A-Z])([A-Z][a-z]{2,})' → r'\1 \2' (greedy {2,} takes the
maximal lowercase run; nothing follows it in the pattern). -/
def jamCapM : RuleM := fun prev l =>
  match prev with
  | none => none
  | some b =>
    if !isPySpace b then none
    else
      match l with
      | c1 :: c2 :: r =>
        if c1.isUpper && c2.isUpper then
          let (run, r1) := spanP Char.isLower r
          if run.length < 2 then none
          else some (c1 :: ' ' :: c2 :: run, c1 :: c2 :: run, r1)
        else none
      | _ => none

/-- Exactly n lowercase letters. -/
def takeLowerN : Nat → List Char → Option (List Char × List Char)
  | 0, r => some ([], r)
  | n + 1, c :: r =>
    if c.isLower then (takeLowerN n r).map (fun pr => (c :: pr.1, pr.2)) else none
  | _ + 1, [] => none

/-- [a-z]{k}- for one k. -/
def tryKLowerDash (k : Nat) (r : List Char) : Option (List Char × List Char) :=
  match takeLowerN k r with
  | some (lows, '-' :: rest) => some (lows, rest)
  | _ => none

def trySizeTail (c1 : Char) (r : List Char) : Option (List Char × List Char × List Char) :=
  match tryKLowerDash 3 r with
  | some (lows, rest) => some (c1 :: ' ' :: (lows ++ ['-']), c1 :: (lows ++ ['-']), rest)
  | none =>
    match tryKLowerDash 2 r with
    | some (lows, rest) => some (c1 :: ' ' :: (lows ++ ['-']), c1 :: (lows ++ ['-']), rest)
    | none =>
      match tryKLowerDash 1 r with
      | some (lows, rest) => some (c1 :: ' ' :: (lows ++ ['-']), c1 :: (lows ++ ['-']), rest)
      | none => none

/-- Rule 7: r'(?<=\s)([SMLX])([a-z]{1,3}-)' → r'\1 \2' (greedy {1,3}: three
lowercase letters are tried first, then two, then one, each requiring the
following '-'). -/
def sizeLetterM : RuleM := fun prev l =>
  match prev with
  | none => none
  | some b =>
    if !isPySpace b then none
    else
      match l with
      | c1 :: r =>
        if c1 == 'S' || c1 == 'M' || c1 == 'L' || c1 == 'X' then trySizeTail c1 r
        else none
      | [] => none

/-- The first seven rewrites of _clean_title, in source order (noise words,
duplicate word, duplicate fragment, duplicate phrase, camel split, jammed
capital, size letter). -/
def cleanCore (l : List Char) : List Char :=
  gsubL sizeLetterM (gsubL jamCapM (gsubL camelM (gsubL dupPhraseM
    (gsubL dupFragM (gsubL dupWordM (gsubL noiseWordM (gsubL noiseAdultM l)))))))

/-- _clean_title: the seven rewrites above followed by the whitespace
collapse-and-strip. -/
def _clean_title (s : String) : String :=
  ⟨normSpaceL (cleanCore s.data)⟩

-- ===================================================================
-- Field parsers (amazon_search.py lines 319-360)
-- ===================================================================

/-- _parse_price: strip every character but digits and dots, float() inside
try/except (exceptions are caught, hence a plain Option). -/
def _parse_price (s : String) : Option ℚ :=
  if s = "" then none
  else pyFloatDigits (s.data.filter isNumDot)

/-- Matcher for r'([\d.]+)\s*(?:out of|/)\s*5' returning the group.  The [\d.]+
munch is maximal: a shorter group is followed by a digit or dot, which cannot
start \s*(?:out of|/). -/
def ratingOutOfM : Option Char → List Char → Option (List Char) := fun _ l =>
  let (run, r1) := spanP isNumDot l
  if run = [] then none
  else
    let r2 := (spanP isPySpace r1).2
    let r3 :=
      match stripPreExact "out of".data r2 with
      | some r => some r
      | none => stripPreExact "/".data r2
    match r3 with
    | none => none
    | some rr =>
      match (spanP isPySpace rr).2 with
      | '5' :: _ => some run
      | _ => none

/-- Matcher for r'([\d.]+)' returning the (maximal) group. -/
def numRunM : Option Char → List Char → Option (List Char) := fun _ l =>
  let (run, _) := spanP isNumDot l
  if run = [] then none else some run

/-- _parse_rating.  The float() calls are NOT guarded by try/except in the
source, so a group like "." that float() rejects raises a ValueError, modelled
as .error (). -/
def _parse_rating (s : String) : Except Unit (Option ℚ) :=
  if s = "" then .ok none
  else
    match searchL ratingOutOfM s.data with
    | some g =>
      match pyFloatDigits g with
      | some v => .ok (some v)
      | none => .error ()
    | none =>
      match searchL numRunM s.data with
      | some g =>
        match pyFloatDigits g with
        | some v => .ok (if v ≤ 5 then some v else none)
        | none => .error ()
      | none => .ok none

/-- Matcher for r'([\d.]+)\s*[Kk]' returning the group (maximal munch, as for
the rating pattern). -/
def reviewsKM : Option Char → List Char → Option (List Char) := fun _ l =>
  let (run, r1) := spanP isNumDot l
  if run = [] then none
  else
    match (spanP isPySpace r1).2 with
    | c :: _ => if c == 'K' || c == 'k' then some run else none
    | [] => none

/-- Matcher for r'(\d+)'. -/
def digitRunM : Option Char → List Char → Option (List Char) := fun _ l =>
  let (run, _) := spanP Char.isDigit l
  if run = [] then none else some run

/-- Python int() truncation for the nonnegative rationals this code produces. -/
def pyIntOfNonneg (q : ℚ) : Nat := (q.num / (q.den : ℤ)).toNat

/-- _parse_reviews.  int(float(group) * 1000) in the K-branch: the float() call
is unguarded, so a dots-only group raises (modelled as .error ()). -/
def _parse_reviews (s : String) : Except Unit Nat :=
  if s = "" then .ok 0
  else
    let cleaned := pyStripL (s.data.filter (fun c => c != ','))
    match searchL reviewsKM cleaned with
    | some g =>
      match pyFloatDigits g with
      | some v => .ok (pyIntOfNonneg (v * 1000))
      | none => .error ()
    | none =>
      match searchL digitRunM cleaned with
      | some g => .ok (digitsToNat g)
      | none => .ok 0

/-- Munch (\d+\.?\d*) maximally; the callers' continuations can never start
with a digit or dot, so regex backtracking cannot produce a different group. -/
def munchSize (l : List Char) : Option (List Char × List Char) :=
  let (d1, r1) := spanP Char.isDigit l
  if d1 = [] then none
  else
    match r1 with
    | '.' :: r2 =>
      let (d2, r3) := spanP Char.isDigit r2
      some (d1 ++ '.' :: d2, r3)
    | _ => some (d1, r1)

/-- r'(\d+\.?\d*)\s*[-"]?\s*[Ii]nch'. -/
def inchP1M : Option Char → List Char → Option (List Char) := fun _ l =>
  match munchSize l with
  | none => none
  | some (g, r1) =>
    let r2 := (spanP isPySpace r1).2
    let r3 :=
      match r2 with
      | c :: rest => if c == '-' || c == '"' then rest else r2
      | [] => r2
    match (spanP isPySpace r3).2 with
    | c :: rest =>
      if c == 'I' || c == 'i' then
        match stripPreExact "nch".data rest with
        | some _ => some g
        | none => none
      else none
    | [] => none

/-- r'(\d+\.?\d*)\s*"'. -/
def inchP2M : Option Char → List Char → Option (List Char) := fun _ l =>
  match munchSize l with
  | none => none
  | some (g, r1) =>
    match (spanP isPySpace r1).2 with
    | '"' :: _ => some g
    | _ => none

/-- r'(\d+\.?\d*)["″]'. -/
def inchP3M : Option Char → List Char → Option (List Char) := fun _ l =>
  match munchSize l with
  | none => none
  | some (g, r1) =>
    match r1 with
    | c :: _ => if c == '"' || c == '″' then some g else none
    | [] => none

/-- r'(\d+\.?\d*)\s*[Ii]n\b'. -/
def inchP4M : Option Char → List Char → Option (List Char) := fun _ l =>
  match munchSize l with
  | none => none
  | some (g, r1) =>
    match (spanP isPySpace r1).2 with
    | c :: rest =>
      if c == 'I' || c == 'i' then
        match rest with
        | 'n' :: r2 => if boundaryAfterL r2 then some g else none
        | _ => none
      else none
    | [] => none

/-- One step of _parse_screen_size: search a pattern, accept a 10..30 value;
out-of-range or no match both fall through to the next pattern. -/
def trySizePat (m : Option Char → List Char → Option (List Char)) (l : List Char) :
    Option ℚ :=
  match searchL m l with
  | some g =>
    match pyFloatDigits g with
    | some v => if 10 ≤ v ∧ v ≤ 30 then some v else none
    | none => none
  | none => none

def _parse_screen_size (title : String) : Option ℚ :=
  match trySizePat inchP1M title.data with
  | some v => some v
  | none =>
    match trySizePat inchP2M title.data with
    | some v => some v
    | none =>
      match trySizePat inchP3M title.data with
      | some v => some v
      | none => trySizePat inchP4M title.data

-- ===================================================================
-- Category filter (amazon_search.py lines 363-379)
-- ===================================================================

def EXCLUDE_KEYWORDS : List String :=
  ["stand", "holder", "mount", "bracket", "case", "sleeve", "bag",
   "cable", "adapter", "hub", "dock", "charger", "stylus", "pen",
   "keyboard", "mouse", "arm", "riser", "protector", "film", "cleaning", "cover", "skin"]

def monitorTerms : List String := ["monitor", "display", "screen"]

/-- One loop iteration of _is_actual_monitor: the keyword kw causes rejection. -/
def kwRejects (lower : String) (hasMon : Bool) (kw : String) : Bool :=
  startsWithStr lower kw
  || containsStr lower (" " ++ kw ++ " for ")
  || containsStr lower (" " ++ kw ++ ",")
  || (containsStr lower kw && !hasMon)

def _is_actual_monitor (title : String) : Bool :=
  let lower := pyLower title
  let hasMon := monitorTerms.any (fun t => containsStr lower t)
  if EXCLUDE_KEYWORDS.any (kwRejects lower hasMon) then false else hasMon

-- ===================================================================
-- Filter/parse, dedup, rank (amazon_search.py lines 384-452)
-- ===================================================================

structure RawListing where
  title : String := ""
  price : String := ""
  rating : String := ""
  reviews : String := ""
  asin : String := ""
  href : String := ""
deriving DecidableEq

structure Listing where
  title : String
  price : Option ℚ
  rating : Option ℚ
  reviews : Nat
  screen_size : Option ℚ
  url : String
  asin : String
  score : ℚ := 0
deriving DecidableEq

def mkUrl (r : RawListing) : String :=
  if r.asin ≠ "" then "https://www.amazon.ca/dp/" ++ r.asin
  else if startsWithStr r.href "/" then "https://www.amazon.ca" ++ r.href
  else r.href

/-- The budget test of _filter_and_parse: price is not None and price > budget. -/
def priceOver : Option ℚ → ℚ → Bool
  | some p, budget => decide (p > budget)
  | none, _ => false

/-- _filter_and_parse.  The unguarded parsers run inside it, so the whole loop
lives in Except; an exception anywhere aborts the call, exactly as in Python. -/
def _filter_and_parse : List RawListing → ℚ → Bool → Except Unit (List Listing)
  | [], _, _ => .ok []
  | r :: rest, budget, monitorOnly =>
    if monitorOnly && !_is_actual_monitor r.title then
      _filter_and_parse rest budget monitorOnly
    else if priceOver (_parse_price r.price) budget then
      _filter_and_parse rest budget monitorOnly
    else
      match _parse_rating r.rating with
      | .error e => .error e
      | .ok rating =>
        match _parse_reviews r.reviews with
        | .error e => .error e
        | .ok reviews =>
          match _filter_and_parse rest budget monitorOnly with
          | .error e => .error e
          | .ok tail =>
            .ok ({ title := _clean_title r.title, price := _parse_price r.price,
                   rating := rating, reviews := reviews,
                   screen_size := _parse_screen_size r.title,
                   url := mkUrl r, asin := r.asin, score := 0 } :: tail)

/-- _deduplicate's loop with its two seen-sets made explicit. -/
def dedupGo : List Listing → List String → List String → List Listing
  | [], _, _ => []
  | p :: rest, seenA, seenT =>
    if p.asin != "" && seenA.contains p.asin then dedupGo rest seenA seenT
    else if seenT.contains (titleKey p.title) then dedupGo rest seenA seenT
    else
      p :: dedupGo rest (if p.asin != "" then p.asin :: seenA else seenA)
        (titleKey p.title :: seenT)

def _deduplicate (ps : List Listing) : List Listing := dedupGo ps [] []

/-- max((p["reviews"] for p in products if p["reviews"]), default=1).  Folding
with base 1 is the same value: every collected element is at least 1. -/
def maxReviews (ps : List Listing) : Nat :=
  ((ps.filter (fun p => p.reviews != 0)).map (fun p => p.reviews)).foldr Nat.max 1

/-- Python min on two floats. -/
def minQ (a b : ℚ) : ℚ := if a ≤ b then a else b

/-- Python max on two floats. -/
def maxQ (a b : ℚ) : ℚ := if a ≤ b then b else a

/-- Floor of a rational (den is positive, and ℤ division rounds down for a
positive divisor), kept as an explicit computation. -/
def floorQ (q : ℚ) : ℤ := q.num / (q.den : ℤ)

/-- Round half to even at integer precision, as Python round() does. -/
def rhe (q : ℚ) : ℤ :=
  let f := floorQ q
  if q - f < 1/2 then f
  else if 1/2 < q - f then f + 1
  else if f % 2 = 0 then f else f + 1

/-- Python round(x, 1) on the exact rational value (round half to even at the
first decimal).  This is the exact-decimal idealization of CPython's float
round; it can differ from the float result only when the exact value sits
precisely on a .x5 tie, where the binary double is not exactly on the tie. -/
def round1 (q : ℚ) : ℚ := (rhe (q * 10) : ℚ) / 10

/-- Popularity points: if reviews > 0, (reviews / max_reviews) * 45. -/
def popScore (mr : Nat) (reviews : Nat) : ℚ :=
  if reviews > 0 then ((reviews : ℚ) / (mr : ℚ)) * 45 else 0

/-- Quality points: if rating (truthiness: not None, not 0.0), down-weighted by
confidence = min(reviews / 50.0, 1.0). -/
def qualScore (reviews : Nat) : Option ℚ → ℚ
  | some r => if r ≠ 0 then (r / 5) * 35 * minQ ((reviews : ℚ) / 50) 1 else 0
  | none => 0

/-- Price points: if price and price > 0, max(0, 1 - price/1000) * 10. -/
def priScore : Option ℚ → ℚ
  | some pr => if pr ≠ 0 ∧ pr > 0 then maxQ 0 (1 - pr / 1000) * 10 else 0
  | none => 0

/-- Screen-size points: flat 10 if a (truthy) size was detected. -/
def sizScore : Option ℚ → ℚ
  | some sz => if sz ≠ 0 then 10 else 0
  | none => 0

/-- The scoring body of _rank for one listing (mr is the batch max reviews):
the four score += statements, then round(score, 1). -/
def scoreOne (mr : Nat) (p : Listing) : Listing :=
  { p with score := round1 (popScore mr p.reviews + qualScore p.reviews p.rating +
      priScore p.price + sizScore p.screen_size) }

/-- Stable insertion for descending sort: x is placed before the first element
whose score is not above x's, so earlier input wins ties. -/
def insertDesc (x : Listing) : List Listing → List Listing
  | [] => [x]
  | y :: ys => if y.score ≤ x.score then x :: y :: ys else y :: insertDesc x ys

/-- Stable descending sort; extensionally the sort performed by Python's stable
list.sort(key=score, reverse=True). -/
def sortDesc : List Listing → List Listing
  | [] => []
  | x :: xs => insertDesc x (sortDesc xs)

/-- _rank: score each listing against the batch's own max review count, then
stable-sort by score descending. -/
def _rank (ps : List Listing) : List Listing :=
  sortDesc (ps.map (scoreOne (maxReviews ps)))

/-- Forget the score a pipeline stage computed (frame-condition helper). -/
def eraseScore (p : Listing) : Listing := { p with score := 0 }

-- ===================================================================
-- Command interpreter (parser.py)
-- ===================================================================

inductive ItemsSel where
  | all : ItemsSel
  | nums : List Nat → ItemsSel
deriving DecidableEq

structure Command where
  intent : String
  query : String := ""
  budget : ℚ := 9999
  budget_specified : Bool := false
  items : ItemsSel := ItemsSel.nums []
  raw : String := ""
deriving DecidableEq

def helpSet : List String := ["help", "start", "h"]
def statusSet : List String := ["status", "ping"]
def cartSet : List String := ["cart", "showcart", "show cart", "view cart", "my cart"]
def resultsSet : List String := ["results", "show results", "last", "last results"]
def searchTriggers : List String :=
  ["search", "find", "look for", "looking for", "get me", "find me",
   "show me", "i want", "i need", "buy", "shop for"]

/-- re.findall(r'\d+', ·). -/
def digitRunsAux : Nat → List Char → List (List Char)
  | 0, _ => []
  | _ + 1, [] => []
  | fuel + 1, c :: rest =>
    if c.isDigit then
      let pr := spanP Char.isDigit (c :: rest)
      pr.1 :: digitRunsAux fuel pr.2
    else digitRunsAux fuel rest

def digitRuns (l : List Char) : List (List Char) := digitRunsAux l.length l

def wordNumMap : List (String × Nat) :=
  [("one", 1), ("two", 2), ("three", 3), ("four", 4), ("five", 5),
   ("first", 1), ("second", 2), ("third", 3), ("fourth", 4), ("fifth", 5)]

/-- The "add" branch of parse_message. -/
def parseAddItems (lower : String) : ItemsSel :=
  let rest := pyStrip (lower.drop 3)
  if rest == "" || rest == "all" || containsStr rest "all" then ItemsSel.all
  else
    let nums := digitRuns rest.data
    if nums != [] then ItemsSel.nums (nums.map digitsToNat)
    else
      let wn := (wordNumMap.filter (fun pr => containsStr rest pr.1)).map (fun pr => pr.2)
      if wn != [] then ItemsSel.nums wn else ItemsSel.all

/-- Munch (\d+(?:\.\d+)?) maximally; the continuations of the budget patterns
never start with a digit or dot, so this munch is the only viable group. -/
def munchNum (l : List Char) : Option (List Char × List Char) :=
  let (d1, r1) := spanP Char.isDigit l
  if d1 = [] then none
  else
    match r1 with
    | '.' :: r2 =>
      let (d2, r3) := spanP Char.isDigit r2
      if d2 = [] then some (d1, r1) else some (d1 ++ '.' :: d2, r3)
    | _ => some (d1, r1)

/-- A budget-pattern matcher: (group, consumed, rest) at the current position. -/
abbrev BudM := List Char → Option (List Char × List Char × List Char)

/-- r'\$\s*(\d+(?:\.\d+)?)'. -/
def budCurM : BudM := fun l =>
  match l with
  | '$' :: r =>
    let r1 := (spanP isPySpace r).2
    match munchNum r1 with
    | some (g, r2) => some (g, takeDiff l r2, r2)
    | none => none
  | _ => none

/-- The (?:dollars?|bucks?|cad|\$) tail; the s? is greedy.  No alternative is a
prefix of another, so at most one can apply at a position. -/
def curWordSuffix (l : List Char) : Option (List Char) :=
  match stripPreExact "dollar".data l with
  | some r => some (if r.head? = some 's' then r.tail else r)
  | none =>
    match stripPreExact "buck".data l with
    | some r => some (if r.head? = some 's' then r.tail else r)
    | none =>
      match stripPreExact "cad".data l with
      | some r => some r
      | none =>
        match l with
        | '$' :: r => some r
        | _ => none

/-- r'(\d+(?:\.\d+)?)\s*(?:dollars?|bucks?|cad|\$)'. -/
def budCurWordM : BudM := fun l =>
  match munchNum l with
  | none => none
  | some (g, r1) =>
    let r2 := (spanP isPySpace r1).2
    match curWordSuffix r2 with
    | some r3 => some (g, takeDiff l r3, r3)
    | none => none

def budQualPre : List String := ["under", "below", "max", "budget", "less than", "up to"]

/-- Try literal alternatives (none is a prefix of another, so at most one can
match at a given position). -/
def tryQuals : List String → List Char → Option (List Char)
  | [], _ => none
  | q :: qs, l =>
    match stripPreExact q.data l with
    | some r => some r
    | none => tryQuals qs l

/-- r'(?:under|below|max|budget|less than|up to)\s*\$?\s*(\d+(?:\.\d+)?)'. -/
def budQualM : BudM := fun l =>
  match tryQuals budQualPre l with
  | none => none
  | some r1 =>
    let r2 := (spanP isPySpace r1).2
    let r3 :=
      match r2 with
      | '$' :: rr => rr
      | _ => r2
    let r4 := (spanP isPySpace r3).2
    match munchNum r4 with
    | some (g, r5) => some (g, takeDiff l r5, r5)
    | none => none

def budSufWords : List String := ["max", "budget", "limit"]

/-- r'(\d+(?:\.\d+)?)\s*(?:max|budget|limit)'. -/
def budNumSufM : BudM := fun l =>
  match munchNum l with
  | none => none
  | some (g, r1) =>
    let r2 := (spanP isPySpace r1).2
    match tryQuals budSufWords r2 with
    | some r3 => some (g, takeDiff l r3, r3)
    | none => none

/-- re.search for a budget pattern (first match's group). -/
def searchBud (m : BudM) (l : List Char) : Option (List Char) :=
  searchL (fun _ s => (m s).map (fun t => t.1)) l

/-- re.sub(pat, '', ·) for a budget pattern (removes every match). -/
def subBud (m : BudM) (l : List Char) : List Char :=
  gsubL (fun _ s => (m s).map (fun t => ([], t.2.1, t.2.2))) l

/-- float() on a (\d+(?:\.\d+)?) group; such a group is always a valid float,
the 0 arm is unreachable. -/
def numQ (g : List Char) : ℚ :=
  match pyFloatDigits g with
  | some v => v
  | none => 0

/-- The for/else over the four budget patterns: first matching pattern sets the
budget from its first match and every match of that pattern is removed, then
the remainder is stripped. -/
def tryBudget (l : List Char) : Option (ℚ × List Char) :=
  match searchBud budCurM l with
  | some g => some (numQ g, pyStripL (subBud budCurM l))
  | none =>
    match searchBud budCurWordM l with
    | some g => some (numQ g, pyStripL (subBud budCurWordM l))
    | none =>
      match searchBud budQualM l with
      | some g => some (numQ g, pyStripL (subBud budQualM l))
      | none =>
        match searchBud budNumSufM l with
        | some g => some (numQ g, pyStripL (subBud budNumSufM l))
        | none => none

/-- Python str.split() with no argument: maximal nonspace runs. -/
def wordsAux : Nat → List Char → List (List Char)
  | 0, _ => []
  | _ + 1, [] => []
  | fuel + 1, c :: rest =>
    if isPySpace c then wordsAux fuel rest
    else
      let pr := spanP (fun ch => !isPySpace ch) (c :: rest)
      pr.1 :: wordsAux fuel pr.2

def pySplitWs (l : List Char) : List (List Char) := wordsAux l.length l

/-- re.match(r'^\d+$', w) for a token without internal whitespace. -/
def isAllDigits (w : List Char) : Bool := w != [] && w.all Char.isDigit

/-- Budget extraction of the search branch: the four patterns in order, then
the bare trailing-integer heuristic, else the 9999.0 default unspecified. -/
def budgetStep (l : List Char) : ℚ × Bool × List Char :=
  match tryBudget l with
  | some (b, r) => (b, true, r)
  | none =>
    let ws := pySplitWs l
    match ws.getLast? with
    | some w =>
      if isAllDigits w && decide (10 < digitsToNat w) then
        ((digitsToNat w : ℚ), true, List.intercalate [' '] ws.dropLast)
      else (9999, false, l)
    | none => (9999, false, l)

def fillerWords : List String :=
  ["a", "an", "the", "me", "for", "on", "amazon", "please", "good", "best", "nice", "great"]

/-- Alternatives of the filler regex with \b on both sides; regex alternation
retries the next alternative when the trailing \b fails. -/
def tryFillerAlts : List String → List Char → Option (List Char)
  | [], _ => none
  | w :: ws, l =>
    match stripPreExact w.data l with
    | some r => if boundaryAfterL r then some r else tryFillerAlts ws l
    | none => tryFillerAlts ws l

/-- r'\b(a|an|the|me|for|on|amazon|please|good|best|nice|great)\b' → ''. -/
def fillerM : RuleM := fun prev l =>
  if !boundaryBefore prev then none
  else
    match tryFillerAlts fillerWords l with
    | some r => some ([], takeDiff l r, r)
    | none => none

/-- Query cleanup: filler removal, whitespace collapse, strip. -/
def cleanQuery (l : List Char) : List Char :=
  pyStripL (subSpacesL (gsubL fillerM l))

/-- Build the search Command from the raw message and the post-trigger rest. -/
def mkSearchFrom (rawS : String) (rest : String) : Command :=
  let t := budgetStep rest.data
  let q := cleanQuery t.2.2
  { intent := "search",
    query := if q = [] then "portable monitor" else ⟨q⟩,
    budget := t.1, budget_specified := t.2.1,
    items := ItemsSel.nums [], raw := rawS }

/-- Strip the first matching search trigger, if any. -/
def restOfTrigger (lower : String) : String :=
  match searchTriggers.find? (fun t => startsWithStr lower t) with
  | some t => pyStrip (lower.drop t.length)
  | none => lower

/-- strip, lowercase, and remove one leading slash. -/
def lowerOf (text : String) : String :=
  let lower0 := pyLower (pyStrip text)
  if startsWithStr lower0 "/" then lower0.drop 1 else lower0

/-- parse_message from parser.py. -/
def parse_message (text : String) : Command :=
  let rawS := pyStrip text
  let lower := lowerOf text
  if helpSet.contains lower then { intent := "help", raw := rawS }
  else if statusSet.contains lower then { intent := "status", raw := rawS }
  else if cartSet.contains lower then { intent := "cart", raw := rawS }
  else if resultsSet.contains lower then { intent := "results", raw := rawS }
  else if startsWithStr lower "add" then
    { intent := "add", items := parseAddItems lower, raw := rawS }
  else mkSearchFrom rawS (restOfTrigger lower)

-- ===================================================================
-- Claim-side predicate (C4), modelled from the claim's own wording
-- ===================================================================

/-- Acceptance predicate written from the words of claim C4, NOT from the
source: it demands the exclusion keyword be the title's FIRST WORD (the source
instead tests str.startswith, i.e. an arbitrary prefix), or appear in
"<kw> for ", or be immediately followed by a comma. -/
def claimAcceptsC4 (title : String) : Bool :=
  let lower := pyLower title
  let hasMon := monitorTerms.any (fun t => containsStr lower t)
  hasMon && EXCLUDE_KEYWORDS.all (fun kw =>
    !((pySplitWs lower.data).head? == some kw.data
      || containsStr lower (kw ++ " for ")
      || containsStr lower (kw ++ ",")))

-- ===================================================================
-- Predicates used by the statements below
-- ===================================================================

/-- No two adjacent whitespace characters. -/
def NoAdjWs (l : List Char) : Prop :=
  List.Chain' (fun a b => ¬(isPySpace a = true ∧ isPySpace b = true)) l

/-- Scores are non-increasing along the list. -/
def SortedDesc (l : List Listing) : Prop :=
  List.Pairwise (fun a b => b.score ≤ a.score) l

/-- The parsed rating, when present, lies in [0, 5]. -/
def RatingOk (p : Listing) : Prop :=
  ∀ r, p.rating = some r → 0 ≤ r ∧ r ≤ 5

/-- Two listings share neither a non-empty identifier nor a title key. -/
def DistinctKeys (a b : Listing) : Prop :=
  (a.asin ≠ "" → a.asin ≠ b.asin) ∧ titleKey a.title ≠ titleKey b.title

-- ===================================================================
-- Whitespace-normalization lemmas (towards claim C2)
-- ===================================================================

theorem cwAux_spaces (l : List Char) :
    ∀ b c, c ∈ cwAux b l → isPySpace c = true → c = ' ' := by
  induction l with
  | nil => intro b c hc _; simp [cwAux] at hc
  | cons d rest ih =>
    intro b c hc hsp
    cases hd : isPySpace d with
    | true =>
      cases b with
      | true =>
        simp only [cwAux, hd] at hc
        exact ih true c hc hsp
      | false =>
        simp only [cwAux, hd, List.mem_cons] at hc
        rcases hc with h | h
        · exact h
        · exact ih true c h hsp
    | false =>
      simp only [cwAux, hd, List.mem_cons] at hc
      rcases hc with h | h
      · subst h; rw [hd] at hsp; cases hsp
      · exact ih false c h hsp

theorem cwAux_head_nonspace (l : List Char) :
    ∀ c, (cwAux true l).head? = some c → isPySpace c = false := by
  induction l with
  | nil => intro c hc; simp [cwAux] at hc
  | cons d rest ih =>
    intro c hc
    cases hd : isPySpace d with
    | true =>
      simp only [cwAux, hd] at hc
      exact ih c hc
    | false =>
      simp only [cwAux, hd, List.head?_cons, Option.some.injEq] at hc
      subst hc; exact hd

theorem cwAux_noAdj (l : List Char) : ∀ b, NoAdjWs (cwAux b l) := by
  induction l with
  | nil => intro b; simp [cwAux, NoAdjWs]
  | cons d rest ih =>
    intro b
    cases hd : isPySpace d with
    | true =>
      cases b with
      | true => simp only [cwAux, hd]; exact ih true
      | false =>
        simp only [cwAux, hd]
        rw [NoAdjWs, List.chain'_cons']
        refine ⟨?_, ih true⟩
        intro y hy hcon
        have := cwAux_head_nonspace rest y hy
        rw [this] at hcon
        cases hcon.2
    | false =>
      simp only [cwAux, hd]
      rw [NoAdjWs, List.chain'_cons']
      refine ⟨?_, ih false⟩
      intro y _ hcon
      rw [hd] at hcon
      cases hcon.1

theorem cwAux_id (l : List Char) :
    ∀ b, NoAdjWs l → (∀ c ∈ l, isPySpace c = true → c = ' ') →
      (b = true → ∀ c, l.head? = some c → isPySpace c = false) → cwAux b l = l := by
  induction l with
  | nil => intro b _ _ _; cases b <;> rfl
  | cons d rest ih =>
    intro b hadj hsp hhead
    cases hd : isPySpace d with
    | true =>
      have hdeq : d = ' ' := hsp d (List.mem_cons_self d rest) hd
      cases b with
      | true =>
        have := hhead rfl d rfl
        rw [hd] at this
        cases this
      | false =>
        simp only [cwAux, hd]
        have hrest : cwAux true rest = rest := by
          refine ih true ?_ ?_ ?_
          · exact (List.chain'_cons'.mp hadj).2
          · intro c hc h; exact hsp c (List.mem_cons_of_mem d hc) h
          · intro _ c hc
            have hrel := (List.chain'_cons'.mp hadj).1 c hc
            cases hcc : isPySpace c with
            | true => exact absurd ⟨hd, hcc⟩ hrel
            | false => rfl
        rw [hrest, hdeq]
    | false =>
      simp only [cwAux, hd]
      have hrest : cwAux false rest = rest := by
        refine ih false ?_ ?_ ?_
        · exact (List.chain'_cons'.mp hadj).2
        · intro c hc h; exact hsp c (List.mem_cons_of_mem d hc) h
        · intro h; cases h
      rw [hrest]

theorem dropWhile_head_not (p : Char → Bool) (l : List Char) :
    ∀ c, (l.dropWhile p).head? = some c → p c = false := by
  induction l with
  | nil => intro c hc; simp [List.dropWhile] at hc
  | cons d rest ih =>
    intro c hc
    cases hd : p d with
    | true =>
      rw [List.dropWhile_cons, if_pos hd] at hc
      exact ih c hc
    | false =>
      rw [List.dropWhile_cons, if_neg (by rw [hd]; exact Bool.false_ne_true)] at hc
      simp only [List.head?_cons, Option.some.injEq] at hc
      subst hc; exact hd

theorem trimLeftL_id (l : List Char)
    (h : ∀ c, l.head? = some c → isPySpace c = false) : trimLeftL l = l := by
  cases l with
  | nil => rfl
  | cons d rest =>
    rw [trimLeftL, List.dropWhile_cons,
      if_neg (by rw [h d rfl]; exact Bool.false_ne_true)]

theorem trimRightL_id (l : List Char)
    (h : ∀ c, l.getLast? = some c → isPySpace c = false) : trimRightL l = l := by
  rw [trimRightL]
  have heq : l.reverse.dropWhile isPySpace = l.reverse := by
    apply trimLeftL_id
    intro c hc
    apply h
    rw [← List.head?_reverse]
    exact hc
  rw [heq, List.reverse_reverse]

theorem trimLeftL_suffix (l : List Char) : trimLeftL l <:+ l :=
  List.dropWhile_suffix isPySpace

theorem trimRightL_isPre (l : List Char) : trimRightL l <+: l := by
  rw [trimRightL]
  apply List.reverse_suffix.mp
  rw [List.reverse_reverse]
  exact List.dropWhile_suffix isPySpace

theorem getLast?_trimRightL (l : List Char) :
    ∀ c, (trimRightL l).getLast? = some c → isPySpace c = false := by
  intro c hc
  rw [trimRightL, List.getLast?_reverse] at hc
  exact dropWhile_head_not isPySpace l.reverse c hc

theorem head?_of_isPre {l m : List Char} (h : l <+: m) (hne : l ≠ []) :
    l.head? = m.head? := by
  obtain ⟨t, rfl⟩ := h
  cases l with
  | nil => exact absurd rfl hne
  | cons a l' => rfl

/-- The canonical-whitespace facts about normSpaceL's output. -/
theorem normSpaceL_canon (l : List Char) :
    NoAdjWs (normSpaceL l) ∧
    (∀ c ∈ normSpaceL l, isPySpace c = true → c = ' ') ∧
    (∀ c, (normSpaceL l).head? = some c → isPySpace c = false) ∧
    (∀ c, (normSpaceL l).getLast? = some c → isPySpace c = false) := by
  have hAdj0 : NoAdjWs (subSpacesL l) := cwAux_noAdj l false
  have hSp0 : ∀ c ∈ subSpacesL l, isPySpace c = true → c = ' ' := cwAux_spaces l false
  have hSuf : trimLeftL (subSpacesL l) <:+ subSpacesL l := trimLeftL_suffix _
  have hPre : normSpaceL l <+: trimLeftL (subSpacesL l) := trimRightL_isPre _
  have hAdj1 : NoAdjWs (trimLeftL (subSpacesL l)) := List.Chain'.suffix hAdj0 hSuf
  have hAdj : NoAdjWs (normSpaceL l) := List.Chain'.prefix hAdj1 hPre
  refine ⟨hAdj, ?_, ?_, ?_⟩
  · intro c hc h
    exact hSp0 c (hSuf.subset (hPre.subset hc)) h
  · intro c hc
    have hne : normSpaceL l ≠ [] := by
      intro hnil; rw [hnil] at hc; cases hc
    rw [head?_of_isPre hPre hne] at hc
    exact dropWhile_head_not isPySpace (subSpacesL l) c hc
  · exact getLast?_trimRightL _

theorem normSpaceL_idem (l : List Char) : normSpaceL (normSpaceL l) = normSpaceL l := by
  obtain ⟨hAdj, hSp, hHead, hLast⟩ := normSpaceL_canon l
  have h1 : subSpacesL (normSpaceL l) = normSpaceL l := by
    rw [subSpacesL]
    exact cwAux_id _ false hAdj hSp (by intro h; cases h)
  show pyStripL (subSpacesL (normSpaceL l)) = normSpaceL l
  rw [h1, pyStripL, trimLeftL_id _ hHead, trimRightL_id _ hLast]

-- ===================================================================
-- Deduplicator lemmas (towards claim C5)
-- ===================================================================

theorem dedupGo_sublist (ps : List Listing) :
    ∀ sA sT, (dedupGo ps sA sT).Sublist ps := by
  induction ps with
  | nil => intro sA sT; simp [dedupGo]
  | cons p rest ih =>
    intro sA sT
    rw [dedupGo]
    split
    · exact (ih sA sT).cons p
    · split
      · exact (ih sA sT).cons p
      · exact (ih _ _).cons₂ p

theorem dedupGo_avoid (ps : List Listing) :
    ∀ sA sT a, a ∈ dedupGo ps sA sT →
      (a.asin ≠ "" → a.asin ∉ sA) ∧ titleKey a.title ∉ sT := by
  induction ps with
  | nil => intro sA sT a ha; simp [dedupGo] at ha
  | cons p rest ih =>
    intro sA sT a ha
    rw [dedupGo] at ha
    split at ha
    · exact ih sA sT a ha
    · rename_i hskip
      split at ha
      · exact ih sA sT a ha
      · rename_i htk
        simp only [List.mem_cons] at ha
        rcases ha with rfl | ha
        · constructor
          · intro hne hmem
            apply hskip
            simp only [Bool.and_eq_true, bne_iff_ne, ne_eq]
            exact ⟨hne, List.elem_iff.mpr hmem⟩
          · intro hmem
            exact htk (List.elem_iff.mpr hmem)
        · have h2 := ih _ _ a ha
          constructor
          · intro hne hmem
            apply h2.1 hne
            split
            · exact List.mem_cons_of_mem _ hmem
            · exact hmem
          · intro hmem
            exact h2.2 (List.mem_cons_of_mem _ hmem)

theorem dedupGo_pairwise (ps : List Listing) :
    ∀ sA sT, List.Pairwise DistinctKeys (dedupGo ps sA sT) := by
  induction ps with
  | nil => intro sA sT; simp [dedupGo]
  | cons p rest ih =>
    intro sA sT
    rw [dedupGo]
    split
    · exact ih sA sT
    · split
      · exact ih sA sT
      · refine List.Pairwise.cons ?_ (ih _ _)
        intro b hb
        have hav := dedupGo_avoid rest _ _ b hb
        constructor
        · intro hne heq
          have hbne : b.asin ≠ "" := by rw [← heq]; exact hne
          apply hav.1 hbne
          rw [← heq]
          simp only [bne_iff_ne, ne_eq, hne, not_false_eq_true, if_pos]
          exact List.mem_cons_self _ _
        · intro heq
          exact hav.2 (heq ▸ List.mem_cons_self _ _)

-- ===================================================================
-- Stable-sort lemmas (towards claims C9, C10, C1)
-- ===================================================================

theorem insertDesc_perm (x : Listing) (l : List Listing) :
    (insertDesc x l).Perm (x :: l) := by
  induction l with
  | nil => exact List.Perm.refl _
  | cons y ys ih =>
    rw [insertDesc]
    split
    · exact List.Perm.refl _
    · exact (ih.cons y).trans (List.Perm.swap x y ys)

theorem sortDesc_perm (l : List Listing) : (sortDesc l).Perm l := by
  induction l with
  | nil => exact List.Perm.refl _
  | cons x xs ih => exact (insertDesc_perm x (sortDesc xs)).trans (ih.cons x)

theorem mem_insertDesc {a x : Listing} {l : List Listing} :
    a ∈ insertDesc x l ↔ a = x ∨ a ∈ l := by
  constructor
  · intro h
    have := (insertDesc_perm x l).mem_iff.mp h
    simpa using this
  · intro h
    apply (insertDesc_perm x l).mem_iff.mpr
    simpa using h

theorem insertDesc_sorted {x : Listing} {l : List Listing}
    (h : SortedDesc l) : SortedDesc (insertDesc x l) := by
  induction l with
  | nil => simp [insertDesc, SortedDesc]
  | cons y ys ih =>
    rw [SortedDesc, List.pairwise_cons] at h
    rw [insertDesc]
    split
    · rename_i hyx
      rw [SortedDesc, List.pairwise_cons]
      constructor
      · intro b hb
        simp only [List.mem_cons] at hb
        rcases hb with rfl | hb
        · exact hyx
        · exact (h.1 b hb).trans hyx
      · rw [SortedDesc] at *
        exact List.pairwise_cons.mpr h
    · rename_i hyx
      have hxy : x.score ≤ y.score := le_of_lt (lt_of_not_le hyx)
      rw [SortedDesc, List.pairwise_cons]
      constructor
      · intro b hb
        rcases mem_insertDesc.mp hb with rfl | hb
        · exact hxy
        · exact h.1 b hb
      · exact ih h.2

theorem sortDesc_sorted (l : List Listing) : SortedDesc (sortDesc l) := by
  induction l with
  | nil => simp [sortDesc, SortedDesc]
  | cons x xs ih => exact insertDesc_sorted ih

theorem insertDesc_filter (x : Listing) (l : List Listing) (q : ℚ) :
    (insertDesc x l).filter (fun p => decide (p.score = q)) =
      if x.score = q then x :: l.filter (fun p => decide (p.score = q))
      else l.filter (fun p => decide (p.score = q)) := by
  induction l with
  | nil =>
    rw [insertDesc]
    split <;> simp_all [List.filter]
  | cons y ys ih =>
    rw [insertDesc]
    split
    · rw [List.filter_cons]
      split
      · rename_i hx
        simp only [decide_eq_true_eq] at hx
        rw [if_pos hx]
      · rename_i hx
        simp only [decide_eq_true_eq] at hx
        rw [if_neg hx]
    · rename_i hyx
      rw [List.filter_cons, List.filter_cons, ih]
      by_cases hx : x.score = q
      · have hy : ¬(y.score = q) := by
          intro hyq
          apply hyx
          rw [hyq, hx]
        rw [if_pos hx, if_pos hx]
        simp [hy]
      · rw [if_neg hx, if_neg hx]

theorem sortDesc_filter (l : List Listing) (q : ℚ) :
    (sortDesc l).filter (fun p => decide (p.score = q)) =
      l.filter (fun p => decide (p.score = q)) := by
  induction l with
  | nil => rfl
  | cons x xs ih =>
    rw [sortDesc, insertDesc_filter, List.filter_cons]
    by_cases hx : x.score = q
    · rw [if_pos hx, ih]
      simp [hx]
    · rw [if_neg hx, ih]
      simp [hx]

-- ===================================================================
-- Score-bound lemmas (towards claim C1)
-- ===================================================================

theorem floorQ_eq (q : ℚ) : floorQ q = ⌊q⌋ := by
  rw [floorQ]
  conv_rhs => rw [← Rat.num_div_den q]
  rw [Rat.floor_intCast_div_natCast]

theorem rhe_bounds {q : ℚ} {n : ℤ} (h0 : 0 ≤ q) (hn : q ≤ (n : ℚ)) :
    0 ≤ rhe q ∧ rhe q ≤ n := by
  have hfl : (⌊q⌋ : ℚ) ≤ q := Int.floor_le q
  have hf0 : 0 ≤ ⌊q⌋ := Int.floor_nonneg.mpr h0
  have hfn : ⌊q⌋ ≤ n := by
    have := Int.floor_le_floor hn
    rwa [Int.floor_intCast] at this
  have key : ∀ hhalf : (⌊q⌋ : ℚ) + 1/2 ≤ q, ⌊q⌋ + 1 ≤ n := by
    intro hhalf
    have hlt : (⌊q⌋ : ℚ) < (n : ℚ) := by linarith
    have : ⌊q⌋ < n := by exact_mod_cast hlt
    omega
  rw [rhe, floorQ_eq]
  split
  · exact ⟨hf0, hfn⟩
  · split
    · rename_i h1 h2
      refine ⟨by omega, key ?_⟩
      linarith
    · split
      · exact ⟨hf0, hfn⟩
      · rename_i h1 h2 h3
        refine ⟨by omega, key ?_⟩
        push_neg at h1
        linarith

theorem round1_bounds {x : ℚ} (h0 : 0 ≤ x) (h100 : x ≤ 100) :
    0 ≤ round1 x ∧ round1 x ≤ 100 := by
  have ht0 : 0 ≤ x * 10 := by linarith
  have ht1 : x * 10 ≤ ((1000 : ℤ) : ℚ) := by push_cast; linarith
  obtain ⟨hl, hu⟩ := rhe_bounds ht0 ht1
  have hlq : (0 : ℚ) ≤ (rhe (x * 10) : ℚ) := by exact_mod_cast hl
  have huq : ((rhe (x * 10) : ℤ) : ℚ) ≤ 1000 := by exact_mod_cast hu
  rw [round1]
  constructor <;> linarith

theorem le_foldr_max {l : List Nat} {a : Nat} (b : Nat) (h : a ∈ l) :
    a ≤ l.foldr Nat.max b := by
  induction l with
  | nil => cases h
  | cons c cs ih =>
    rcases List.mem_cons.mp h with rfl | h2
    · exact Nat.le_max_left _ _
    · exact (ih h2).trans (Nat.le_max_right _ _)

theorem base_le_foldr_max (l : List Nat) (b : Nat) : b ≤ l.foldr Nat.max b := by
  induction l with
  | nil => exact Nat.le_refl b
  | cons c cs ih => exact ih.trans (Nat.le_max_right _ _)

theorem one_le_maxReviews (ps : List Listing) : 1 ≤ maxReviews ps :=
  base_le_foldr_max _ 1

theorem reviews_le_maxReviews {ps : List Listing} {p : Listing}
    (h : p ∈ ps) (h0 : p.reviews ≠ 0) : p.reviews ≤ maxReviews ps := by
  apply le_foldr_max
  apply List.mem_map.mpr
  refine ⟨p, ?_, rfl⟩
  rw [List.mem_filter]
  exact ⟨h, by simpa using h0⟩

theorem minQ_bounds {a : ℚ} (ha : 0 ≤ a) : 0 ≤ minQ a 1 ∧ minQ a 1 ≤ 1 := by
  rw [minQ]
  split
  · constructor
    · exact ha
    · assumption
  · norm_num

theorem popScore_bounds {ps : List Listing} {p : Listing} (hmem : p ∈ ps) :
    0 ≤ popScore (maxReviews ps) p.reviews ∧ popScore (maxReviews ps) p.reviews ≤ 45 := by
  rw [popScore]
  split
  · rename_i hrev
    have hmr : (0 : ℚ) < (maxReviews ps : ℚ) := by
      exact_mod_cast Nat.lt_of_lt_of_le Nat.zero_lt_one (one_le_maxReviews ps)
    have hle : (p.reviews : ℚ) ≤ (maxReviews ps : ℚ) := by
      exact_mod_cast reviews_le_maxReviews hmem (Nat.pos_iff_ne_zero.mp hrev)
    have hdiv1 : (p.reviews : ℚ) / (maxReviews ps : ℚ) ≤ 1 := (div_le_one hmr).mpr hle
    have hdiv0 : 0 ≤ (p.reviews : ℚ) / (maxReviews ps : ℚ) := by positivity
    constructor <;> nlinarith
  · norm_num

theorem qualScore_bounds (reviews : Nat) (rt : Option ℚ)
    (h : ∀ r, rt = some r → 0 ≤ r ∧ r ≤ 5) :
    0 ≤ qualScore reviews rt ∧ qualScore reviews rt ≤ 35 := by
  cases rt with
  | none => rw [qualScore]; norm_num
  | some r =>
    obtain ⟨hr0, hr5⟩ := h r rfl
    rw [qualScore]
    split
    · have hc := minQ_bounds (show (0:ℚ) ≤ (reviews : ℚ) / 50 by positivity)
      have h15 : r / 5 ≤ 1 := by linarith
      have h05 : 0 ≤ r / 5 := by linarith
      constructor <;> nlinarith [hc.1, hc.2]
    · norm_num

theorem priScore_bounds (pc : Option ℚ) : 0 ≤ priScore pc ∧ priScore pc ≤ 10 := by
  cases pc with
  | none => rw [priScore]; norm_num
  | some pr =>
    rw [priScore]
    split
    · rename_i hcond
      have hm := hcond.2
      rw [maxQ]
      split
      · rename_i hle
        constructor
        · linarith
        · have : pr / 1000 > 0 := by positivity
          nlinarith
      · norm_num
    · norm_num

theorem sizScore_bounds (sc : Option ℚ) : 0 ≤ sizScore sc ∧ sizScore sc ≤ 10 := by
  cases sc with
  | none => rw [sizScore]; norm_num
  | some sz => rw [sizScore]; split <;> norm_num

theorem scoreOne_score_bounds {ps : List Listing} {p : Listing}
    (hmem : p ∈ ps) (hr : RatingOk p) :
    0 ≤ (scoreOne (maxReviews ps) p).score ∧ (scoreOne (maxReviews ps) p).score ≤ 100 := by
  rw [scoreOne]
  have h1 := popScore_bounds hmem
  have h2 := qualScore_bounds p.reviews p.rating hr
  have h3 := priScore_bounds p.price
  have h4 := sizScore_bounds p.screen_size
  apply round1_bounds
  · linarith [h1.1, h2.1, h3.1, h4.1]
  · linarith [h1.2, h2.2, h3.2, h4.2]

-- ===================================================================
-- Category-filter lemmas (towards claim C4)
-- ===================================================================

theorem isActualMonitor_iff (title : String) :
    _is_actual_monitor title = true ↔
      (monitorTerms.any (fun t => containsStr (pyLower title) t) = true ∧
       ∀ kw ∈ EXCLUDE_KEYWORDS,
         startsWithStr (pyLower title) kw = false ∧
         containsStr (pyLower title) (" " ++ kw ++ " for ") = false ∧
         containsStr (pyLower title) (" " ++ kw ++ ",") = false) := by
  rw [_is_actual_monitor]
  split
  · rename_i hany
    constructor
    · intro hfalse; cases hfalse
    · rintro ⟨hA, hpos⟩
      exfalso
      obtain ⟨kw, hkwmem, hkwrej⟩ := List.any_eq_true.mp hany
      obtain ⟨c1, c2, c3⟩ := hpos kw hkwmem
      rw [kwRejects, hA, c1, c2, c3] at hkwrej
      simp at hkwrej
  · rename_i hany
    have hall : ∀ kw ∈ EXCLUDE_KEYWORDS,
        kwRejects (pyLower title)
          (monitorTerms.any (fun t => containsStr (pyLower title) t)) kw = false := by
      intro kw hkw
      by_contra hne
      exact hany (List.any_eq_true.mpr ⟨kw, hkw, by
        cases h : kwRejects (pyLower title)
          (monitorTerms.any (fun t => containsStr (pyLower title) t)) kw
        · exact absurd h hne
        · rfl⟩)
    constructor
    · intro hA
      refine ⟨hA, ?_⟩
      intro kw hkw
      have hkwf := hall kw hkw
      rw [kwRejects] at hkwf
      simp only [Bool.or_eq_false_iff] at hkwf
      exact ⟨hkwf.1.1.1, hkwf.1.1.2, hkwf.1.2⟩
    · rintro ⟨hA, _⟩
      exact hA

theorem filter_and_parse_flag (raws : List RawListing) (b : ℚ) :
    _filter_and_parse raws b true =
      _filter_and_parse (raws.filter (fun r => _is_actual_monitor r.title)) b false := by
  induction raws with
  | nil => rfl
  | cons r rest ih =>
    rw [List.filter_cons]
    cases hm : _is_actual_monitor r.title with
    | true =>
      rw [if_pos rfl]
      rw [_filter_and_parse, _filter_and_parse]
      rw [hm]
      simp only [Bool.not_true, Bool.and_false, Bool.false_and, Bool.false_eq_true,
        if_false, ih]
    | false =>
      simp only [Bool.false_eq_true, if_false]
      rw [_filter_and_parse, hm]
      simp only [Bool.not_false, Bool.and_true, if_true, ih]

-- ===================================================================
-- Budget-filter lemmas (towards claim C6)
-- ===================================================================

theorem filter_and_parse_spec (raws : List RawListing) (budget : ℚ) (m : Bool) :
    ∀ l, _filter_and_parse raws budget m = .ok l →
      ((∀ p ∈ l, match p.price with | none => True | some pr => pr ≤ budget) ∧
       (∀ r ∈ raws, (m = false ∨ _is_actual_monitor r.title = true) →
          _parse_price r.price = none →
          ∃ p ∈ l, p.price = none ∧ p.asin = r.asin ∧ p.title = _clean_title r.title)) := by
  induction raws with
  | nil =>
    intro l hl
    rw [_filter_and_parse] at hl
    injection hl with hl
    subst hl
    exact ⟨by simp, by simp⟩
  | cons r rest ih =>
    intro l hl
    rw [_filter_and_parse] at hl
    by_cases hskip : (m && !_is_actual_monitor r.title) = true
    · rw [if_pos hskip] at hl
      obtain ⟨h1, h2⟩ := ih l hl
      refine ⟨h1, ?_⟩
      intro r' hr' hcat hp
      rcases List.mem_cons.mp hr' with rfl | hr'
      · exfalso
        rcases hcat with hmf | hmon
        · rw [hmf] at hskip; simp at hskip
        · rw [hmon] at hskip; simp at hskip
      · exact h2 r' hr' hcat hp
    · rw [if_neg hskip] at hl
      by_cases hover : priceOver (_parse_price r.price) budget = true
      · rw [if_pos hover] at hl
        obtain ⟨h1, h2⟩ := ih l hl
        refine ⟨h1, ?_⟩
        intro r' hr' hcat hp
        rcases List.mem_cons.mp hr' with rfl | hr'
        · exfalso
          rw [hp] at hover
          simp [priceOver] at hover
        · exact h2 r' hr' hcat hp
      · rw [if_neg hover] at hl
        cases hrt : _parse_rating r.rating with
        | error e => rw [hrt] at hl; cases hl
        | ok rating =>
          rw [hrt] at hl
          cases hrv : _parse_reviews r.reviews with
          | error e => rw [hrv] at hl; cases hl
          | ok reviews =>
            rw [hrv] at hl
            cases htl : _filter_and_parse rest budget m with
            | error e => rw [htl] at hl; cases hl
            | ok tail =>
              rw [htl] at hl
              injection hl with hl
              subst hl
              obtain ⟨h1, h2⟩ := ih tail htl
              constructor
              · intro p hp
                rcases List.mem_cons.mp hp with rfl | hp
                · dsimp only
                  cases hpp : _parse_price r.price with
                  | none => trivial
                  | some pr =>
                    rw [hpp] at hover
                    simp only [priceOver, decide_eq_true_eq, not_lt] at hover
                    exact hover
                · exact h1 p hp
              · intro r' hr' hcat hp
                rcases List.mem_cons.mp hr' with rfl | hr'
                · refine ⟨_, List.mem_cons_self _ _, ?_, rfl, rfl⟩
                  exact hp
                · obtain ⟨p, hpmem, hrest⟩ := h2 r' hr' hcat hp
                  exact ⟨p, List.mem_cons_of_mem _ hpmem, hrest⟩

-- ===================================================================
-- Interpreter helper lemmas (towards claims C7, C8)
-- ===================================================================

theorem mkSearchFrom_intent (rawS rest : String) :
    (mkSearchFrom rawS rest).intent = "search" := rfl

-- ===================================================================
-- Claim theorems
-- ===================================================================

/-- Claim C1 (amended): every listing in the ranked output has a nonnegative
score, and the score is at most 100 provided every listing's parsed rating lies
in [0, 5].  The rating hypothesis is needed: the "x out of 5" branch of the
rating parser does not cap its value, so the 35-point quality cap can be
exceeded (see the counterexample). -/
theorem c1_score_bound (ps : List Listing) (h : ∀ p ∈ ps, RatingOk p) :
    ∀ q ∈ _rank ps, 0 ≤ q.score ∧ q.score ≤ 100 := by
  intro q hq
  rw [_rank] at hq
  have hq2 : q ∈ ps.map (scoreOne (maxReviews ps)) := (sortDesc_perm _).mem_iff.mp hq
  obtain ⟨p, hp, rfl⟩ := List.mem_map.mp hq2
  exact scoreOne_score_bounds hp (h p hp)

/-- Witness for c1_score_bound at a concrete singleton batch. -/
theorem c1_score_bound_witness :
    (∀ p ∈ ([
      { title := "m", price := none, rating := some 4, reviews := 0,
        screen_size := none, url := "", asin := "", score := 0 }] : List Listing),
        RatingOk p) ∧
    (∀ q ∈ _rank ([
      { title := "m", price := none, rating := some 4, reviews := 0,
        screen_size := none, url := "", asin := "", score := 0 }] : List Listing),
        0 ≤ q.score ∧ q.score ≤ 100) := by
  have hyp : ∀ p ∈ ([
      { title := "m", price := none, rating := some 4, reviews := 0,
        screen_size := none, url := "", asin := "", score := 0 }] : List Listing),
      RatingOk p := by
    intro p hp r hr
    simp only [List.mem_singleton] at hp
    subst hp
    injection hr with hr
    subst hr
    norm_num
  exact ⟨hyp, c1_score_bound _ hyp⟩

/-- Counterexample to claim C1 as stated: a rating text "6 out of 5" parses to
6.0, and the resulting singleton batch is ranked with score 107 > 100. -/
theorem c1_score_bound_cex :
    _parse_rating "6 out of 5" = .ok (some 6) ∧
    (_rank [
      { title := "m", price := some 1, rating := some 6, reviews := 50,
        screen_size := some 27, url := "", asin := "A", score := 0 }]).map
        (fun p => p.score) = [107] ∧
    ¬ ((107 : ℚ) ≤ 100) := by
  refine ⟨?_, ?_, by norm_num⟩
  · with_unfolding_all rfl
  · with_unfolding_all rfl

/-- normSpaceStr acts on the underlying character list. -/
theorem normSpaceStr_mk (x : List Char) : normSpaceStr ⟨x⟩ = ⟨normSpaceL x⟩ := rfl

/-- Claim C2 (amended): the Title Normalizer is not idempotent in general (see
the counterexample), but its final whitespace-normalization stage is: applying
the whitespace collapse-and-strip to the normalizer's output returns the output
unchanged. -/
theorem c2_normalizer_ws_idem (s : String) :
    normSpaceStr (_clean_title s) = _clean_title s := by
  have h2 : _clean_title s = ⟨normSpaceL (cleanCore s.data)⟩ := rfl
  rw [h2, normSpaceStr_mk, normSpaceL_idem]

/-- Counterexample to claim C2 as stated: the duplicate-word collapse leaves a
new adjacent duplicate behind, so a second pass rewrites further. -/
theorem c2_normalizer_not_idem :
    _clean_title "a a a" = "a a" ∧ _clean_title (_clean_title "a a a") = "a" ∧
    _clean_title (_clean_title "a a a") ≠ _clean_title "a a a" := by
  refine ⟨by decide, by decide, by decide⟩

/-- Claim C3: the spec requires parsers never to fail, but the unguarded
float() calls in _parse_rating and _parse_reviews raise ValueError when the
matched numeric group is all dots (e.g. rating text "." or review text ".k");
_parse_price, by contrast, catches its exception and degrades to unknown. -/
theorem c3_parsers_crash :
    _parse_rating "." = .error () ∧ _parse_reviews ".k" = .error () ∧
    _parse_price "." = none := by
  refine ⟨?_, ?_, ?_⟩ <;> with_unfolding_all rfl

/-- Claim C4 (amended): with the category flag on, a listing is accepted iff
its lowercased title contains a category keyword and no exclusion keyword
occurs as a PREFIX of the title (str.startswith, not "first word"), inside
" kw for " (space before kw), or in " kw," (space before kw); with the flag
off, the category filter is skipped and every listing reaches the budget
stage. -/
theorem c4_category_filter :
    (∀ title, _is_actual_monitor title = true ↔
      (monitorTerms.any (fun t => containsStr (pyLower title) t) = true ∧
       ∀ kw ∈ EXCLUDE_KEYWORDS,
         startsWithStr (pyLower title) kw = false ∧
         containsStr (pyLower title) (" " ++ kw ++ " for ") = false ∧
         containsStr (pyLower title) (" " ++ kw ++ ",") = false)) ∧
    (∀ raws (b : ℚ), _filter_and_parse raws b true =
      _filter_and_parse (raws.filter (fun r => _is_actual_monitor r.title)) b false) :=
  ⟨isActualMonitor_iff, filter_and_parse_flag⟩

/-- Witness for c4_category_filter: an ordinary monitor title is accepted. -/
theorem c4_category_filter_witness :
    _is_actual_monitor "portable monitor" = true :=
  (c4_category_filter.1 "portable monitor").mpr ⟨by decide, by decide⟩

/-- Counterexample to claim C4 as stated: "standard monitor" contains the
category keyword "monitor" and no exclusion keyword as its first word, in
"<kw> for ", or before a comma, so the claim accepts it; the code rejects it
because str.startswith("stand") also matches the prefix of "standard". -/
theorem c4_category_filter_cex :
    _is_actual_monitor "standard monitor" = false ∧
    claimAcceptsC4 "standard monitor" = true := ⟨by decide, by decide⟩

/-- Claim C5: the deduplicated output is a sublist of the input (order kept,
only drops), and no two survivors share a non-empty identifier or a
whitespace-collapsed case-folded title key. -/
theorem c5_dedup (ps : List Listing) :
    (_deduplicate ps).Sublist ps ∧ List.Pairwise DistinctKeys (_deduplicate ps) :=
  ⟨dedupGo_sublist ps [] [], dedupGo_pairwise ps [] []⟩

/-- Witness for c5_dedup on a concrete batch with a duplicate identifier. -/
theorem c5_dedup_witness :
    List.Pairwise DistinctKeys (_deduplicate [
      { title := "Same  Title", price := none, rating := none, reviews := 0,
        screen_size := none, url := "", asin := "A", score := 0 },
      { title := "same title", price := none, rating := none, reviews := 0,
        screen_size := none, url := "", asin := "B", score := 0 },
      { title := "Other", price := none, rating := none, reviews := 0,
        screen_size := none, url := "", asin := "A", score := 0 }]) :=
  (c5_dedup _).2

/-- Claim C6: every listing kept by the budget filter has unknown price or
price at most the budget, and a listing that passes the category stage with an
unknown price is never excluded on budget grounds (it appears in the output
whenever the call returns at all). -/
theorem c6_budget_filter (raws : List RawListing) (budget : ℚ) (m : Bool)
    (l : List Listing) (h : _filter_and_parse raws budget m = .ok l) :
    (∀ p ∈ l, match p.price with | none => True | some pr => pr ≤ budget) ∧
    (∀ r ∈ raws, (m = false ∨ _is_actual_monitor r.title = true) →
       _parse_price r.price = none →
       ∃ p ∈ l, p.price = none ∧ p.asin = r.asin ∧ p.title = _clean_title r.title) :=
  filter_and_parse_spec raws budget m l h

/-- Witness for c6_budget_filter at a concrete call. -/
theorem c6_budget_filter_witness :
    _filter_and_parse [
      { title := "portable monitor", price := "", rating := "",
        reviews := "", asin := "B01", href := "" }] 300 true =
      .ok [
        { title := "portable monitor", price := none, rating := none, reviews := 0,
          screen_size := none, url := "https://www.amazon.ca/dp/B01", asin := "B01",
          score := 0 }] ∧
    (∀ p ∈ [
      ({ title := "portable monitor", price := none, rating := none, reviews := 0,
         screen_size := none, url := "https://www.amazon.ca/dp/B01", asin := "B01",
         score := 0 } : Listing)],
       match p.price with | none => True | some pr => pr ≤ (300 : ℚ)) := by
  have h : _filter_and_parse [
      ({ title := "portable monitor", price := "", rating := "",
         reviews := "", asin := "B01", href := "" } : RawListing)] 300 true =
      .ok [
        { title := "portable monitor", price := none, rating := none, reviews := 0,
          screen_size := none, url := "https://www.amazon.ca/dp/B01", asin := "B01",
          score := 0 }] := by
    with_unfolding_all rfl
  exact ⟨h, (c6_budget_filter _ _ _ _ h).1⟩

/-- Claim C7: budget extraction tries the four patterns in order and the first
match sets an explicit budget, with every match of that pattern removed from
the query; if none matches, a bare all-digit final token exceeding 10 becomes
the explicit budget and is removed; otherwise the 9999.0 default applies,
marked not explicit.  In particular "find 4K monitor under 250" parses to a
search with explicit budget 250.0 and query "4k monitor". -/
theorem c7_budget_extraction :
    (parse_message "find 4K monitor under 250" =
      { intent := "search", query := "4k monitor", budget := 250,
        budget_specified := true, items := ItemsSel.nums [],
        raw := "find 4K monitor under 250" }) ∧
    (∀ l g, searchBud budCurM l = some g →
      budgetStep l = (numQ g, true, pyStripL (subBud budCurM l))) ∧
    (∀ l g, searchBud budCurM l = none → searchBud budCurWordM l = some g →
      budgetStep l = (numQ g, true, pyStripL (subBud budCurWordM l))) ∧
    (∀ l g, searchBud budCurM l = none → searchBud budCurWordM l = none →
      searchBud budQualM l = some g →
      budgetStep l = (numQ g, true, pyStripL (subBud budQualM l))) ∧
    (∀ l g, searchBud budCurM l = none → searchBud budCurWordM l = none →
      searchBud budQualM l = none → searchBud budNumSufM l = some g →
      budgetStep l = (numQ g, true, pyStripL (subBud budNumSufM l))) ∧
    (∀ l w, searchBud budCurM l = none → searchBud budCurWordM l = none →
      searchBud budQualM l = none → searchBud budNumSufM l = none →
      (pySplitWs l).getLast? = some w →
      (isAllDigits w && decide (10 < digitsToNat w)) = true →
      budgetStep l = ((digitsToNat w : ℚ), true,
        List.intercalate [' '] (pySplitWs l).dropLast)) ∧
    (∀ l w, searchBud budCurM l = none → searchBud budCurWordM l = none →
      searchBud budQualM l = none → searchBud budNumSufM l = none →
      (pySplitWs l).getLast? = some w →
      (isAllDigits w && decide (10 < digitsToNat w)) = false →
      budgetStep l = (9999, false, l)) ∧
    (∀ l, searchBud budCurM l = none → searchBud budCurWordM l = none →
      searchBud budQualM l = none → searchBud budNumSufM l = none →
      (pySplitWs l).getLast? = none → budgetStep l = (9999, false, l)) := by
  refine ⟨?_, ?_, ?_, ?_, ?_, ?_, ?_, ?_⟩
  · with_unfolding_all rfl
  · intro l g h1
    simp only [budgetStep, tryBudget, h1]
  · intro l g h1 h2
    simp only [budgetStep, tryBudget, h1, h2]
  · intro l g h1 h2 h3
    simp only [budgetStep, tryBudget, h1, h2, h3]
  · intro l g h1 h2 h3 h4
    simp only [budgetStep, tryBudget, h1, h2, h3, h4]
  · intro l w h1 h2 h3 h4 h5 h6
    simp only [budgetStep, tryBudget, h1, h2, h3, h4, h5, h6, if_true]
  · intro l w h1 h2 h3 h4 h5 h6
    simp only [budgetStep, tryBudget, h1, h2, h3, h4, h5, h6, Bool.false_eq_true, if_false]
  · intro l h1 h2 h3 h4 h5
    simp only [budgetStep, tryBudget, h1, h2, h3, h4, h5]

/-- Witness for c7_budget_extraction: the qualifier-pattern branch fires on
"4k monitor under 250". -/
theorem c7_budget_extraction_witness :
    searchBud budCurM "4k monitor under 250".data = none ∧
    searchBud budCurWordM "4k monitor under 250".data = none ∧
    searchBud budQualM "4k monitor under 250".data = some "250".data ∧
    budgetStep "4k monitor under 250".data = (250, true, "4k monitor".data) := by
  have h1 : searchBud budCurM "4k monitor under 250".data = none := by decide
  have h2 : searchBud budCurWordM "4k monitor under 250".data = none := by decide
  have h3 : searchBud budQualM "4k monitor under 250".data = some "250".data := by decide
  refine ⟨h1, h2, h3, ?_⟩
  have hstep := c7_budget_extraction.2.2.2.1 _ _ h1 h2 h3
  rw [hstep]
  with_unfolding_all rfl

/-- Claim C8: the interpreter returns one of the six real intents and never
"unknown"; any message that matches no fixed phrase set and does not start
with "add" is processed as a search over the trigger-stripped rest, and when
no search trigger matches either, that rest is the entire (lowercased,
stripped) message. -/
theorem c8_never_unknown :
    (∀ text, (parse_message text).intent ∈
      (["help", "status", "cart", "results", "add", "search"] : List String)) ∧
    (∀ text, helpSet.contains (lowerOf text) = false →
      statusSet.contains (lowerOf text) = false →
      cartSet.contains (lowerOf text) = false →
      resultsSet.contains (lowerOf text) = false →
      startsWithStr (lowerOf text) "add" = false →
      parse_message text = mkSearchFrom (pyStrip text) (restOfTrigger (lowerOf text))) ∧
    (∀ text, searchTriggers.find? (fun t => startsWithStr (lowerOf text) t) = none →
      restOfTrigger (lowerOf text) = lowerOf text) := by
  refine ⟨?_, ?_, ?_⟩
  · intro text
    rw [parse_message]
    split
    · simp
    · split
      · simp
      · split
        · simp
        · split
          · simp
          · split
            · simp
            · rw [restOfTrigger]
              split <;> simp [mkSearchFrom_intent]
  · intro text h1 h2 h3 h4 h5
    rw [parse_message]
    rw [h1, h2, h3, h4, h5]
    simp
  · intro text h6
    rw [restOfTrigger, h6]

/-- Witness for c8_never_unknown: an unrecognized message falls through to the
search branch with the whole message as query source. -/
theorem c8_never_unknown_witness :
    helpSet.contains (lowerOf "blargh gizmo") = false ∧
    searchTriggers.find? (fun t => startsWithStr (lowerOf "blargh gizmo") t) = none ∧
    parse_message "blargh gizmo" =
      mkSearchFrom (pyStrip "blargh gizmo") (restOfTrigger (lowerOf "blargh gizmo")) ∧
    restOfTrigger (lowerOf "blargh gizmo") = lowerOf "blargh gizmo" := by
  refine ⟨by decide, by decide, ?_, ?_⟩
  · exact c8_never_unknown.2.1 "blargh gizmo" (by decide) (by decide) (by decide) (by decide)
      (by decide)
  · exact c8_never_unknown.2.2 "blargh gizmo" (by decide)

/-- Claim C9: the ranked output is sorted by score descending (also after the
caller's top-10 truncation), and the sort is stable: for every score value the
listings carrying it appear in exactly their pre-sort (post-dedup) order. -/
theorem c9_rank_sorted_stable (ps : List Listing) :
    SortedDesc (_rank ps) ∧ SortedDesc ((_rank ps).take 10) ∧
    (∀ q : ℚ, (_rank ps).filter (fun p => decide (p.score = q)) =
      (ps.map (scoreOne (maxReviews ps))).filter (fun p => decide (p.score = q))) := by
  refine ⟨sortDesc_sorted _, ?_, ?_⟩
  · exact List.Pairwise.sublist (List.take_sublist _ _) (sortDesc_sorted _)
  · intro q
    exact sortDesc_filter _ q

/-- Claim C10: the Scorer/Ranker only adds the score: with scores erased, its
output is a permutation of its input records (all other fields untouched). -/
theorem c10_rank_frame (ps : List Listing) :
    ((_rank ps).map eraseScore).Perm (ps.map eraseScore) := by
  rw [_rank]
  refine ((sortDesc_perm _).map eraseScore).trans ?_
  rw [List.map_map]
  have heq : ps.map (eraseScore ∘ scoreOne (maxReviews ps)) = ps.map eraseScore :=
    List.map_congr_left (fun p _ => rfl)
  rw [heq]
